import Mathlib

/-
Shallow embedding of the ECS core of the aspen engine
(src/src/entity.rs, src/src/component.rs, src/src/system.rs, src/src/lib.rs).

Modelling conventions:
- std::any::TypeId is an opaque runtime key, modelled as a natural number.
- An Arc<Mutex<dyn Any>> shared cell is modelled as an address (CellId) into
  an explicit heap, so that sharing a cell really aliases it: the very same
  address can be reached both through a Component table and by an external
  holder, and a write through either is seen by both.
- The dyn Any payload inside a cell is modelled as an opaque value (Val).
  Downcasts in the source always target the type key of the table the cell
  was fetched from, so the payload tag is carried by the table and omitted.
- Rust HashMap<K, V> is an association list with key-replacing insert and
  first-match lookup; all reachable maps have no duplicate keys, so the
  unspecified iteration order is the only divergence, and no claim below
  depends on iteration order.
- f32 time arithmetic in World::tick is modelled exactly over the rationals.
- Instant::now()/Duration are abstracted into an explicit elapsed-seconds
  parameter of tick (always non-negative, as a Duration is).
-/

namespace Aspen

/-- Runtime type key, modelling std::any::TypeId. -/
abbrev TypeKey := Nat

/-- Address of a shared mutable cell, modelling one Arc<Mutex<dyn Any>>
allocation. -/
abbrev CellId := Nat

/-- Opaque component payload: the contents of a cell. -/
abbrev Val := Nat

/-- An entity (src/src/entity.rs): a newtype around a u32 id. -/
structure Entity where
  id : Nat
deriving DecidableEq, Repr

/-- Entity::new. -/
def Entity.new (id : Nat) : Entity := ⟨id⟩

/-- Key-replacing insert, the behaviour of Rust HashMap::insert: if the key is
present its value is overwritten in place, otherwise the pair is appended. -/
def mapInsert {α β : Type} [DecidableEq α] (m : List (α × β)) (k : α) (v : β) :
    List (α × β) :=
  match m with
  | [] => [(k, v)]
  | p :: rest => if p.1 = k then (k, v) :: rest else p :: mapInsert rest k v

/-- First-match lookup, the behaviour of Rust HashMap::get. -/
def mapLookup {α β : Type} [DecidableEq α] (m : List (α × β)) (k : α) :
    Option β :=
  match m with
  | [] => none
  | p :: rest => if p.1 = k then some p.2 else mapLookup rest k

/-- Collecting an iterator of pairs into a HashMap: later pairs with the same
key overwrite earlier ones. -/
def collectMap {α β : Type} [DecidableEq α] (l : List (α × β)) :
    List (α × β) :=
  l.foldl (fun m p => mapInsert m p.1 p.2) []

/-- The heap of shared cells: cell address to current contents. -/
abbrev Heap := List (CellId × Val)

/-- Mutating the contents of an existing cell (a write through the Mutex). -/
def writeCell (h : Heap) (c : CellId) (v : Val) : Heap :=
  h.map (fun p => if p.1 = c then (c, v) else p)

/-- A Component table (src/src/component.rs): a runtime-typed map from Entity
to a shared cell. -/
structure Component where
  data : List (Entity × CellId)
  type_id : TypeKey
deriving DecidableEq, Repr

/-- Component::new. -/
def Component.new (type_id : TypeKey) : Component := ⟨[], type_id⟩

/-- Component::entities. -/
def Component.entities (c : Component) : List Entity := c.data.map Prod.fst

/-- Component::add_entity: HashMap::insert into the table. -/
def Component.add_entity (c : Component) (e : Entity) (cell : CellId) :
    Component :=
  { c with data := mapInsert c.data e cell }

/-- Component::remove_entity: HashMap::remove from the table. -/
def Component.remove_entity (c : Component) (e : Entity) : Component :=
  { c with data := c.data.filter (fun p => p.1 ≠ e) }

/-- A Query (src/src/system.rs): the filtered view over the Component Store
handed to one system invocation. -/
structure Query where
  /-- The source field is named matches, a reserved word in Lean. -/
  matched : List Component
deriving Repr

/-- Query::new: keep exactly the tables whose type key is in the filter set. -/
def Query.new (haystack : List Component) (filterSet : List TypeKey) : Query :=
  ⟨haystack.filter (fun c => filterSet.contains c.type_id)⟩

/-- Query::get_entities: every entity present in a table matching the type
key. -/
def Query.get_entities (T : TypeKey) (q : Query) : List Entity :=
  ((q.matched.filter (fun c => c.type_id == T)).map
    (fun c => c.data.map Prod.fst)).flatten

/-- Query::get: the shared cell for one entity in the first table matching the
type key, if any. -/
def Query.get (T : TypeKey) (q : Query) (ent : Entity) : Option CellId :=
  match (q.matched.filter (fun c => c.type_id == T)).head? with
  | some component => mapLookup component.data ent
  | none => none

/-- Query::get_all: all entity-to-cell pairs of every table matching the type
key, collected into a HashMap. -/
def Query.get_all (T : TypeKey) (q : Query) : List (Entity × CellId) :=
  collectMap (((q.matched.filter (fun c => c.type_id == T)).map
    (fun c => c.data)).flatten)

/-- The entity-to-contents map that Query::all builds after acquiring every
lock up front: each entity of the matching tables paired with the current
contents of its cell. -/
def Query.allView (T : TypeKey) (q : Query) (heap : Heap) :
    List (Entity × Option Val) :=
  (Query.get_all T q).map (fun p => (p.1, mapLookup heap p.2))

/-- Query::all: build the locked view, hand it to the closure f once, and
release the locks. the result of f is the final contents of each borrowed value at
release time (it models the mutations f performed through the exclusive
references); those contents are written back to the cells of the entities. -/
def Query.all (T : TypeKey) (q : Query) (heap : Heap)
    (f : List (Entity × Option Val) → List (Entity × Option Val)) : Heap :=
  let cells := Query.get_all T q
  let view2 := f (Query.allView T q heap)
  view2.foldl (fun h p =>
    match mapLookup cells p.1, p.2 with
    | some cid, some v => writeCell h cid v
    | _, _ => h) heap

/-- A registered system: covers both System and ResourcedSystem of
src/src/system.rs (the captured resource of a resourced system is part of its body
closure). components is the HashSet<TypeId> filter returned by
SystemInterface::components; body is the effect of SystemInterface::execute on
cell contents, given the Query it receives — a system invocation can mutate
the contents of shared cells but never the table structure, the system lists
or the scheduler state. label is ghost instrumentation naming the system in
execution traces and has no runtime counterpart. -/
structure SystemDef where
  label : Nat
  components : List TypeKey
  body : Query → Heap → Heap

/-- The World (src/src/lib.rs). previous_time is abstracted: tick takes the
elapsed seconds directly. The heap and the cell allocator model the
Arc allocations made by add_component. -/
structure WorldState where
  entities : List Entity
  components : List Component
  fixed_systems : List SystemDef
  dependent_systems : List SystemDef
  current_id : Nat
  period : ℚ
  accumulator : ℚ
  heap : Heap
  next_cell : Nat

/-- WorldBuilder (src/src/lib.rs): frequency is a u16. -/
structure WorldBuilder where
  frequency : Nat

/-- WorldBuilder::default / WorldBuilder::new: fixed frequency of 60 Hz. -/
def WorldBuilder.new : WorldBuilder := ⟨60⟩

/-- WorldBuilder::with_frequency. -/
def WorldBuilder.with_frequency (b : WorldBuilder) (frequency : Nat) :
    WorldBuilder :=
  { b with frequency := frequency }

/-- WorldBuilder::build. -/
def WorldBuilder.build (b : WorldBuilder) : WorldState :=
  { entities := []
    components := []
    fixed_systems := []
    dependent_systems := []
    current_id := 0
    period := 1 / (b.frequency : ℚ)
    accumulator := 0
    heap := []
    next_cell := 0 }

/-- World::new_entity: push Entity::new(current_id), increment the u32 counter
(wrapping at 2^32), return the entity just pushed. -/
def World.new_entity (w : WorldState) : Entity × WorldState :=
  let e := Entity.new w.current_id
  (e, { w with
          entities := w.entities ++ [e]
          current_id := (w.current_id + 1) % 2 ^ 32 })

/-- The loop body of World::share_component: scan the store for a table whose
type key matches, insert there and stop; if none matches, append a fresh table
and insert into it. -/
def storeInsert (components : List Component) (k : TypeKey) (e : Entity)
    (cell : CellId) : List Component :=
  match components with
  | [] => [Component.add_entity (Component.new k) e cell]
  | comp :: rest =>
      if comp.type_id = k then Component.add_entity comp e cell :: rest
      else comp :: storeInsert rest k e cell

/-- World::share_component: store a caller-supplied cell (the caller keeps its
own handle to the same address). -/
def World.share_component (w : WorldState) (k : TypeKey) (e : Entity)
    (cell : CellId) : WorldState :=
  { w with components := storeInsert w.components k e cell }

/-- World::add_component: allocate a fresh cell holding the value
(Arc::new(Mutex::new(data))) and share it. -/
def World.add_component (w : WorldState) (k : TypeKey) (e : Entity) (v : Val) :
    WorldState :=
  World.share_component
    { w with heap := w.heap ++ [(w.next_cell, v)], next_cell := w.next_cell + 1 }
    k e w.next_cell

/-- World::add_fixed_system. -/
def World.add_fixed_system (w : WorldState) (s : SystemDef) : WorldState :=
  { w with fixed_systems := w.fixed_systems ++ [s] }

/-- World::add_dependent_system. -/
def World.add_dependent_system (w : WorldState) (s : SystemDef) : WorldState :=
  { w with dependent_systems := w.dependent_systems ++ [s] }

/-- Run a list of systems once each, in registration order, each against a
fresh Query scoped to its own filter. Returns the heap afterwards and the
trace of executed system labels in order. -/
def runPass (systems : List SystemDef) (components : List Component)
    (heap : Heap) : Heap × List Nat :=
  match systems with
  | [] => (heap, [])
  | s :: rest =>
      let res := runPass rest components (s.body (Query.new components s.components) heap)
      (res.1, s.label :: res.2)

/-- The catch-up loop of World::tick: while accumulator >= period, run every
fixed system once and subtract the period. The positivity conjunct makes the
recursion total; it does not change behaviour on any state the source can
reach, since a frequency of zero makes the f32 period +infinity, whose loop
also never runs. -/
def fixedLoop (period : ℚ) (systems : List SystemDef)
    (components : List Component) (heap : Heap) (acc : ℚ) :
    Heap × ℚ × List Nat :=
  if h : 0 < period ∧ period ≤ acc then
    let pass := runPass systems components heap
    let rest := fixedLoop period systems components pass.1 (acc - period)
    (rest.1, rest.2.1, pass.2 ++ rest.2.2)
  else (heap, acc, [])
termination_by (⌊acc / period⌋).toNat
decreasing_by
  obtain ⟨hp, hle⟩ := h
  have h1 : (acc - period) / period = acc / period - 1 := by
    rw [sub_div, div_self (ne_of_gt hp)]
  have h2 : (1 : ℚ) ≤ acc / period := (one_le_div hp).mpr hle
  have h3 : (1 : ℤ) ≤ ⌊acc / period⌋ := by
    exact Int.le_floor.mpr (by exact_mod_cast h2)
  have h4 : ⌊acc / period - 1⌋ = ⌊acc / period⌋ - 1 := by
    simpa using Int.floor_sub_int (acc / period) 1
  rw [h1, h4]
  omega

/-- World::tick: accumulate the elapsed time, run the fixed catch-up loop,
then run every dependent system exactly once. delta is the elapsed seconds
since the previous tick. Besides the updated world, returns the trace of
system labels in execution order. -/
def World.tick (w : WorldState) (delta : ℚ) : WorldState × List Nat :=
  let fx := fixedLoop w.period w.fixed_systems w.components w.heap
    (w.accumulator + delta)
  let dep := runPass w.dependent_systems w.components fx.1
  ({ w with heap := dep.1, accumulator := fx.2.1 }, fx.2.2 ++ dep.2)


/-! ### Association-map lemmas -/

theorem mapLookup_mapInsert_self {α β : Type} [DecidableEq α]
    (m : List (α × β)) (k : α) (v : β) :
    mapLookup (mapInsert m k v) k = some v := by
  induction m with
  | nil => simp [mapInsert, mapLookup]
  | cons p rest ih =>
      by_cases h : p.1 = k
      · simp [mapInsert, h, mapLookup]
      · simp [mapInsert, h, mapLookup, ih]

theorem mapLookup_mapInsert_ne {α β : Type} [DecidableEq α]
    (m : List (α × β)) (k k2 : α) (v : β) (hne : k2 ≠ k) :
    mapLookup (mapInsert m k v) k2 = mapLookup m k2 := by
  have hne2 : ¬ k = k2 := fun hh => hne hh.symm
  induction m with
  | nil => simp [mapInsert, mapLookup, hne2]
  | cons p rest ih =>
      by_cases h : p.1 = k
      · have hp : ¬ p.1 = k2 := by rw [h]; exact hne2
        simp [mapInsert, h, mapLookup, hne2, hp]
      · simp [mapInsert, h, mapLookup, ih]

theorem mapInsert_keys {α β : Type} [DecidableEq α]
    (m : List (α × β)) (k : α) (v : β) :
    (mapInsert m k v).map Prod.fst =
      if k ∈ m.map Prod.fst then m.map Prod.fst
      else m.map Prod.fst ++ [k] := by
  induction m with
  | nil => simp [mapInsert]
  | cons p rest ih =>
      by_cases h : p.1 = k
      · simp [mapInsert, h]
      · have h2 : ¬ k = p.1 := fun hh => h hh.symm
        simp only [mapInsert, if_neg h, List.map_cons, List.mem_cons, h2,
          false_or, ih]
        by_cases hk : k ∈ rest.map Prod.fst <;> simp [hk]

theorem nodup_keys_mapInsert {α β : Type} [DecidableEq α]
    (m : List (α × β)) (k : α) (v : β) (h : (m.map Prod.fst).Nodup) :
    ((mapInsert m k v).map Prod.fst).Nodup := by
  rw [mapInsert_keys]
  by_cases hk : k ∈ m.map Prod.fst
  · simpa [hk] using h
  · rw [if_neg hk, List.nodup_append]
    refine ⟨h, List.nodup_singleton k, ?_⟩
    intro a ha hb
    rw [List.mem_singleton] at hb
    exact hk (hb ▸ ha)

theorem count_keys_mapInsert {α β : Type} [DecidableEq α]
    (m : List (α × β)) (k : α) (v : β) (h : (m.map Prod.fst).Nodup) :
    ((mapInsert m k v).map Prod.fst).count k = 1 := by
  rw [mapInsert_keys]
  by_cases hk : k ∈ m.map Prod.fst
  · rw [if_pos hk]
    exact List.count_eq_one_of_mem h hk
  · rw [if_neg hk, List.count_append]
    simp [List.count_eq_zero.mpr hk]

theorem mapLookup_eq_none_of_not_mem {α β : Type} [DecidableEq α]
    (m : List (α × β)) (k : α) (h : k ∉ m.map Prod.fst) :
    mapLookup m k = none := by
  induction m with
  | nil => simp [mapLookup]
  | cons p rest ih =>
      simp only [List.map_cons, List.mem_cons] at h
      push_neg at h
      have hp : ¬ p.1 = k := fun hh => h.1 hh.symm
      simp [mapLookup, hp, ih h.2]

theorem mapLookup_of_mem_nodup {α β : Type} [DecidableEq α]
    (m : List (α × β)) (k : α) (v : β) (hm : (k, v) ∈ m)
    (hnd : (m.map Prod.fst).Nodup) :
    mapLookup m k = some v := by
  induction m with
  | nil => simp at hm
  | cons p rest ih =>
      rw [List.map_cons, List.nodup_cons] at hnd
      rcases List.mem_cons.mp hm with h | h
      · simp [mapLookup, ← h]
      · have hk : k ∈ rest.map Prod.fst :=
          List.mem_map.mpr ⟨(k, v), h, rfl⟩
        have hne : p.1 ≠ k := fun hh => hnd.1 (hh ▸ hk)
        simp [mapLookup, hne, ih h hnd.2]

theorem mapLookup_append_of_none {α β : Type} [DecidableEq α]
    (l1 l2 : List (α × β)) (k : α) (h : mapLookup l1 k = none) :
    mapLookup (l1 ++ l2) k = mapLookup l2 k := by
  induction l1 with
  | nil => simp
  | cons p rest ih =>
      by_cases hp : p.1 = k
      · simp [mapLookup, hp] at h
      · simp only [mapLookup, if_neg hp] at h
        simpa [mapLookup, hp] using ih h

theorem mapLookup_append_of_some {α β : Type} [DecidableEq α]
    (l1 l2 : List (α × β)) (k : α) (v : β) (h : mapLookup l1 k = some v) :
    mapLookup (l1 ++ l2) k = some v := by
  induction l1 with
  | nil => simp [mapLookup] at h
  | cons p rest ih =>
      by_cases hp : p.1 = k
      · simp only [mapLookup, if_pos hp] at h
        simp [mapLookup, hp, h]
      · simp only [mapLookup, if_neg hp] at h
        simpa [mapLookup, hp] using ih h


/-! ### Cell-write and iterator-collect lemmas -/

theorem writeCell_lookup_self (h : Heap) (c : CellId) (v v0 : Val)
    (hc : mapLookup h c = some v0) :
    mapLookup (writeCell h c v) c = some v := by
  induction h with
  | nil => simp [mapLookup] at hc
  | cons p rest ih =>
      by_cases hp : p.1 = c
      · simp [writeCell, hp, mapLookup]
      · simp only [mapLookup, if_neg hp] at hc
        simpa [writeCell, mapLookup, hp] using ih hc

theorem writeCell_lookup_ne (h : Heap) (c c2 : CellId) (v : Val)
    (hne : c2 ≠ c) :
    mapLookup (writeCell h c v) c2 = mapLookup h c2 := by
  induction h with
  | nil => rfl
  | cons p rest ih =>
      have hc2 : ¬ c = c2 := fun hh => hne hh.symm
      by_cases hp : p.1 = c
      · have hp2 : ¬ p.1 = c2 := by rw [hp]; exact hc2
        calc mapLookup (writeCell (p :: rest) c v) c2
            = mapLookup ((c, v) :: writeCell rest c v) c2 := by
              simp [writeCell, hp]
          _ = mapLookup (writeCell rest c v) c2 := by simp [mapLookup, hc2]
          _ = mapLookup rest c2 := ih
          _ = mapLookup (p :: rest) c2 := by simp [mapLookup, hp2]
      · calc mapLookup (writeCell (p :: rest) c v) c2
            = mapLookup (p :: writeCell rest c v) c2 := by simp [writeCell, hp]
          _ = mapLookup (p :: rest) c2 := by
              by_cases hq : p.1 = c2 <;> simp [mapLookup, hq, ih]

theorem writeCell_of_not_mem (h : Heap) (c : CellId) (v : Val)
    (hc : c ∉ h.map Prod.fst) :
    writeCell h c v = h := by
  induction h with
  | nil => rfl
  | cons p rest ih =>
      simp only [List.map_cons, List.mem_cons] at hc
      push_neg at hc
      have hp : ¬ p.1 = c := fun hh => hc.1 hh.symm
      simp [writeCell, hp]
      simpa [writeCell] using ih hc.2

theorem writeCell_self_id (h : Heap) (c : CellId) (v : Val)
    (hnd : (h.map Prod.fst).Nodup) (hl : mapLookup h c = some v) :
    writeCell h c v = h := by
  induction h with
  | nil => rfl
  | cons p rest ih =>
      rw [List.map_cons, List.nodup_cons] at hnd
      by_cases hp : p.1 = c
      · simp only [mapLookup, if_pos hp, Option.some.injEq] at hl
        have hmem : c ∉ rest.map Prod.fst := by rw [← hp]; exact hnd.1
        have hrest : writeCell rest c v = rest :=
          writeCell_of_not_mem rest c v hmem
        have hpp : p = (c, v) := by
          obtain ⟨p1, p2⟩ := p
          simp only at hp hl
          rw [hp, hl]
        calc writeCell (p :: rest) c v
            = (c, v) :: writeCell rest c v := by simp [writeCell, hp]
          _ = p :: rest := by rw [hrest, ← hpp]
      · simp only [mapLookup, if_neg hp] at hl
        calc writeCell (p :: rest) c v
            = p :: writeCell rest c v := by simp [writeCell, hp]
          _ = p :: rest := by rw [ih hnd.2 hl]

theorem collectFold_keys_nodup {α β : Type} [DecidableEq α]
    (l : List (α × β)) :
    ∀ acc : List (α × β), (acc.map Prod.fst).Nodup →
      ((l.foldl (fun m p => mapInsert m p.1 p.2) acc).map Prod.fst).Nodup := by
  induction l with
  | nil => intro acc h; simpa using h
  | cons p rest ih =>
      intro acc h
      simp only [List.foldl_cons]
      exact ih _ (nodup_keys_mapInsert acc p.1 p.2 h)

theorem collectMap_keys_nodup {α β : Type} [DecidableEq α]
    (l : List (α × β)) : ((collectMap l).map Prod.fst).Nodup :=
  collectFold_keys_nodup l [] (by simp)

theorem collectFold_lookup_not_mem {α β : Type} [DecidableEq α]
    (l : List (α × β)) (k : α) (hk : k ∉ l.map Prod.fst) :
    ∀ acc : List (α × β),
      mapLookup (l.foldl (fun m p => mapInsert m p.1 p.2) acc) k =
        mapLookup acc k := by
  induction l with
  | nil => intro acc; rfl
  | cons p rest ih =>
      simp only [List.map_cons, List.mem_cons] at hk
      push_neg at hk
      intro acc
      simp only [List.foldl_cons]
      rw [ih hk.2, mapLookup_mapInsert_ne _ _ _ _ hk.1]

theorem collectFold_lookup_mem {α β : Type} [DecidableEq α]
    (l : List (α × β)) (k : α) (v : β) (hm : (k, v) ∈ l)
    (hnd : (l.map Prod.fst).Nodup) :
    ∀ acc : List (α × β),
      mapLookup (l.foldl (fun m p => mapInsert m p.1 p.2) acc) k = some v := by
  induction l with
  | nil => simp at hm
  | cons p rest ih =>
      rw [List.map_cons, List.nodup_cons] at hnd
      intro acc
      simp only [List.foldl_cons]
      rcases List.mem_cons.mp hm with h | h
      · rw [collectFold_lookup_not_mem rest k (by rw [← h] at hnd; exact hnd.1)]
        rw [← h, mapLookup_mapInsert_self]
      · exact ih h hnd.2 _

theorem mapLookup_collectMap_mem {α β : Type} [DecidableEq α]
    (l : List (α × β)) (k : α) (v : β) (hm : (k, v) ∈ l)
    (hnd : (l.map Prod.fst).Nodup) :
    mapLookup (collectMap l) k = some v :=
  collectFold_lookup_mem l k v hm hnd []

theorem mapLookup_collectMap_not_mem {α β : Type} [DecidableEq α]
    (l : List (α × β)) (k : α) (hk : k ∉ l.map Prod.fst) :
    mapLookup (collectMap l) k = none :=
  (collectFold_lookup_not_mem l k hk []).trans rfl

theorem mem_mapInsert {α β : Type} [DecidableEq α]
    (m : List (α × β)) (k : α) (v : β) (p : α × β) (h : p ∈ mapInsert m k v) :
    p ∈ m ∨ p = (k, v) := by
  induction m with
  | nil =>
      simp [mapInsert] at h
      simp [h]
  | cons r rest ih =>
      by_cases hr : r.1 = k
      · simp only [mapInsert, if_pos hr] at h
        rcases List.mem_cons.mp h with h2 | h2
        · exact Or.inr h2
        · exact Or.inl (List.mem_cons_of_mem _ h2)
      · simp only [mapInsert, if_neg hr] at h
        rcases List.mem_cons.mp h with h2 | h2
        · exact Or.inl (h2 ▸ List.mem_cons_self r rest)
        · rcases ih h2 with h3 | h3
          · exact Or.inl (List.mem_cons_of_mem _ h3)
          · exact Or.inr h3

theorem collectFold_mem {α β : Type} [DecidableEq α]
    (l : List (α × β)) (p : α × β) :
    ∀ acc : List (α × β),
      p ∈ l.foldl (fun m q => mapInsert m q.1 q.2) acc →
        p.1 ∈ l.map Prod.fst ∨ p ∈ acc := by
  induction l with
  | nil => intro acc h; exact Or.inr h
  | cons q rest ih =>
      intro acc h
      simp only [List.foldl_cons] at h
      rcases ih (mapInsert acc q.1 q.2) h with h2 | h2
      · exact Or.inl (List.mem_cons_of_mem _ h2)
      · rcases mem_mapInsert acc q.1 q.2 p h2 with h3 | h3
        · exact Or.inr h3
        · exact Or.inl (by simp [h3])

theorem collectMap_mem {α β : Type} [DecidableEq α]
    (l : List (α × β)) (p : α × β) (hm : p ∈ collectMap l) :
    p.1 ∈ l.map Prod.fst := by
  rcases collectFold_mem l p [] hm with h | h
  · exact h
  · simp at h


/-! ### Component-store lemmas -/

theorem add_entity_type_id (c : Component) (e : Entity) (cell : CellId) :
    (Component.add_entity c e cell).type_id = c.type_id := rfl

theorem storeInsert_typeKeys (comps : List Component) (k : TypeKey)
    (e : Entity) (c : CellId) :
    (storeInsert comps k e c).map Component.type_id =
      if k ∈ comps.map Component.type_id then comps.map Component.type_id
      else comps.map Component.type_id ++ [k] := by
  induction comps with
  | nil => simp [storeInsert, Component.add_entity, Component.new]
  | cons comp rest ih =>
      by_cases h : comp.type_id = k
      · simp [storeInsert, h, Component.add_entity]
      · have h2 : ¬ k = comp.type_id := fun hh => h hh.symm
        simp only [storeInsert, if_neg h, List.map_cons, List.mem_cons, h2,
          false_or, ih]
        by_cases hk : k ∈ rest.map Component.type_id <;> simp [hk]

theorem nodup_storeInsert_typeKeys (comps : List Component) (k : TypeKey)
    (e : Entity) (c : CellId) (h : (comps.map Component.type_id).Nodup) :
    ((storeInsert comps k e c).map Component.type_id).Nodup := by
  rw [storeInsert_typeKeys]
  by_cases hk : k ∈ comps.map Component.type_id
  · simpa [hk] using h
  · rw [if_neg hk, List.nodup_append]
    refine ⟨h, List.nodup_singleton k, ?_⟩
    intro a ha hb
    rw [List.mem_singleton] at hb
    exact hk (hb ▸ ha)

theorem storeInsert_filter_head (comps : List Component) (k : TypeKey)
    (e : Entity) (c : CellId) :
    ((storeInsert comps k e c).filter (fun x => x.type_id == k)).head? =
      some (Component.add_entity
        (((comps.filter (fun x => x.type_id == k)).head?).getD
          (Component.new k)) e c) := by
  induction comps with
  | nil => simp [storeInsert, Component.add_entity, Component.new]
  | cons comp rest ih =>
      by_cases h : comp.type_id = k
      · simp [storeInsert, h, List.filter_cons, Component.add_entity]
      · simp [storeInsert, h, List.filter_cons, ih]

theorem storeInsert_filter_eq (comps : List Component) (k : TypeKey)
    (e : Entity) (c : CellId) :
    (comps.map Component.type_id).Nodup →
    (storeInsert comps k e c).filter (fun x => x.type_id == k) =
      [Component.add_entity
        (((comps.filter (fun x => x.type_id == k)).head?).getD
          (Component.new k)) e c] := by
  induction comps with
  | nil => intro _; simp [storeInsert, Component.new, Component.add_entity]
  | cons comp rest ih =>
      intro hnd
      rw [List.map_cons, List.nodup_cons] at hnd
      by_cases h : comp.type_id = k
      · have hrest : rest.filter (fun x => x.type_id == k) = [] := by
          rw [List.filter_eq_nil_iff]
          intro x hx
          simp only [beq_iff_eq]
          intro hxk
          have hm : k ∈ rest.map Component.type_id :=
            List.mem_map.mpr ⟨x, hx, hxk⟩
          rw [← h] at hm
          exact hnd.1 hm
        simp [storeInsert, h, List.filter_cons, Component.add_entity, hrest]
      · simp [storeInsert, h, List.filter_cons, ih hnd.2]

/-! ### Query lemmas -/

theorem query_new_filter_comm (comps : List Component) (F : List TypeKey)
    (k : TypeKey) (hk : k ∈ F) :
    (Query.new comps F).matched.filter (fun x => x.type_id == k) =
      comps.filter (fun x => x.type_id == k) := by
  simp only [Query.new]
  rw [List.filter_filter]
  apply List.filter_congr
  intro x _
  by_cases h : x.type_id = k
  · simp [h, hk]
  · simp [h]


theorem query_new_matched (comps : List Component) (F : List TypeKey) :
    (Query.new comps F).matched =
      comps.filter (fun c => F.contains c.type_id) := rfl

/-! ### Claim C2 -/

/-- Claim C2: the Query constructed from a Component Store and a filter set F
contains exactly those Component Tables whose type key is a member of F — every
table whose key is in F is included (union semantics: a system interested in
several keys observes any entity appearing in any of those tables), and no
table whose key is outside F leaks in, so get_entities for a type key outside
F is empty. -/
theorem query_filter_exact (store : List Component) (F : List TypeKey) :
    (∀ c, c ∈ (Query.new store F).matched ↔ c ∈ store ∧ c.type_id ∈ F) ∧
    (∀ U, U ∉ F → Query.get_entities U (Query.new store F) = []) := by
  constructor
  · intro c
    rw [query_new_matched, List.mem_filter]
    constructor
    · rintro ⟨h1, h2⟩
      exact ⟨h1, by simpa using h2⟩
    · rintro ⟨h1, h2⟩
      exact ⟨h1, by simp [h2]⟩
  · intro U hU
    have hnil :
        (Query.new store F).matched.filter (fun c => c.type_id == U) = [] := by
      rw [List.filter_eq_nil_iff]
      intro c hc
      simp only [beq_iff_eq]
      intro hcU
      have h2 := (List.mem_filter.mp (query_new_matched store F ▸ hc)).2
      rw [hcU] at h2
      exact hU (by simpa using h2)
    unfold Query.get_entities
    rw [hnil]
    rfl

/-- A concrete store for witnesses: a table for type key 1 holding entity 0,
and a table for type key 2 holding entity 1. -/
def wStore : List Component :=
  [⟨[(Entity.new 0, 0)], 1⟩, ⟨[(Entity.new 1, 1)], 2⟩]

/-- Witness for C2: with filter set just the key 1, membership works out and
type key 2 yields no entities. -/
theorem query_filter_exact_witness :
    ((⟨[(Entity.new 0, 0)], 1⟩ : Component) ∈ (Query.new wStore [1]).matched ↔
      (⟨[(Entity.new 0, 0)], 1⟩ : Component) ∈ wStore ∧ (1 : TypeKey) ∈ [1]) ∧
    ((2 : TypeKey) ∉ ([1] : List TypeKey) ∧
      Query.get_entities 2 (Query.new wStore [1]) = []) :=
  ⟨(query_filter_exact wStore [1]).1 _,
    by decide, (query_filter_exact wStore [1]).2 2 (by decide)⟩

/-! ### Claim C7 -/

/-- Claim C7: looking up a type with no matching table in the Query, or an
entity with no entry in the matching table, is never an error: get returns
none, and get_entities and get_all return empty collections. -/
theorem missing_component_is_empty (q : Query) (T : TypeKey) (e : Entity) :
    ((∀ c ∈ q.matched, c.type_id ≠ T) →
      Query.get T q e = none ∧ Query.get_entities T q = [] ∧
        Query.get_all T q = []) ∧
    ((∀ c ∈ q.matched, c.type_id = T → mapLookup c.data e = none) →
      Query.get T q e = none) := by
  constructor
  · intro h
    have hf : q.matched.filter (fun c => c.type_id == T) = [] := by
      rw [List.filter_eq_nil_iff]
      intro c hc
      simp [h c hc]
    refine ⟨?_, ?_, ?_⟩
    · unfold Query.get
      rw [hf]
      rfl
    · unfold Query.get_entities
      rw [hf]
      rfl
    · unfold Query.get_all
      rw [hf]
      rfl
  · intro h
    rcases hh : (q.matched.filter (fun c => c.type_id == T)).head? with _ | comp
    · unfold Query.get
      rw [hh]
    · have hmem := List.mem_of_mem_head? hh
      have hc := List.mem_filter.mp hmem
      unfold Query.get
      rw [hh]
      exact h comp hc.1 (by simpa using hc.2)

/-- Witness for C7: on the concrete store, type key 3 has no table, and entity
7 has no entry in the table for type key 1. -/
theorem missing_component_is_empty_witness :
    ((∀ c ∈ (Query.new wStore [1, 2, 3]).matched, c.type_id ≠ 3) ∧
      Query.get 3 (Query.new wStore [1, 2, 3]) (Entity.new 0) = none ∧
      Query.get_entities 3 (Query.new wStore [1, 2, 3]) = [] ∧
      Query.get_all 3 (Query.new wStore [1, 2, 3]) = []) ∧
    ((∀ c ∈ (Query.new wStore [1]).matched, c.type_id = 1 →
        mapLookup c.data (Entity.new 7) = none) ∧
      Query.get 1 (Query.new wStore [1]) (Entity.new 7) = none) :=
  ⟨⟨by decide,
    (missing_component_is_empty (Query.new wStore [1, 2, 3]) 3
      (Entity.new 0)).1 (by decide)⟩,
   by decide,
   (missing_component_is_empty (Query.new wStore [1]) 1 (Entity.new 7)).2
     (by decide)⟩


/-! ### Claim C3 -/

/-- World states reachable from a freshly built World by any sequence of
new_entity, add_component and share_component calls. -/
inductive Reachable : WorldState → Prop where
  | build (b : WorldBuilder) : Reachable (WorldBuilder.build b)
  | new_entity {w : WorldState} : Reachable w →
      Reachable (World.new_entity w).2
  | add_component {w : WorldState} (k : TypeKey) (e : Entity) (v : Val) :
      Reachable w → Reachable (World.add_component w k e v)
  | share_component {w : WorldState} (k : TypeKey) (e : Entity) (c : CellId) :
      Reachable w → Reachable (World.share_component w k e c)

/-- Claim C3: in every reachable World state the Component Store has at most
one Component Table per distinct type key — the list of type keys of the
tables has no duplicates, so add_component and share_component never append a
second table for a key that already occurs. -/
theorem store_one_table_per_key (w : WorldState) (hw : Reachable w) :
    (w.components.map Component.type_id).Nodup := by
  induction hw with
  | build b => simp [WorldBuilder.build]
  | new_entity _ ih => exact ih
  | add_component k e v _ ih =>
      exact nodup_storeInsert_typeKeys _ k e _ ih
  | share_component k e c _ ih =>
      exact nodup_storeInsert_typeKeys _ k e c ih

/-- A concrete reachable world for the C3 witness: two components of type key
3 (one shared, one added, colliding on the key) and one of type key 7. -/
def wReach : WorldState :=
  World.add_component
    (World.add_component
      (World.share_component
        (World.new_entity (WorldBuilder.build ⟨60⟩)).2 3 (Entity.new 0) 9)
      3 (Entity.new 0) 5)
    7 (Entity.new 0) 6

/-- Witness for C3 at a concrete reachable state. -/
theorem store_one_table_per_key_witness :
    (wReach.components.map Component.type_id).Nodup :=
  store_one_table_per_key wReach
    (Reachable.add_component 7 (Entity.new 0) 6
      (Reachable.add_component 3 (Entity.new 0) 5
        (Reachable.share_component 3 (Entity.new 0) 9
          (Reachable.new_entity (Reachable.build ⟨60⟩)))))

/-! ### Claim C5 -/

/-- Issue n fresh entities in sequence, collecting the returned entities. -/
def issueEntities : WorldState → Nat → List Entity
  | _, 0 => []
  | w, n + 1 =>
      (World.new_entity w).1 :: issueEntities (World.new_entity w).2 n

theorem issueEntities_closed_form (n : Nat) :
    ∀ w : WorldState, w.current_id < 2 ^ 32 →
      issueEntities w n =
        (List.range n).map
          (fun i => Entity.new ((w.current_id + i) % 2 ^ 32)) := by
  induction n with
  | zero => intro w _; rfl
  | succ n ih =>
      intro w hw
      have hw2 : (World.new_entity w).2.current_id < 2 ^ 32 := by
        simp only [World.new_entity]
        exact Nat.mod_lt _ (by norm_num)
      rw [issueEntities, ih _ hw2]
      rw [List.range_succ_eq_map]
      simp only [List.map_cons, List.map_map, World.new_entity]
      refine List.cons_eq_cons.mpr ⟨?_, ?_⟩
      · rw [Nat.add_zero, Nat.mod_eq_of_lt hw]
      · apply List.map_congr_left
        intro i _
        simp only [Function.comp]
        rw [Nat.mod_add_mod]
        rw [show w.current_id + 1 + i = w.current_id + (i + 1) by ring]

/-- Claim C5: any sequence of fewer than 2^32 new_entity calls issues pairwise
distinct entities — each call returns an entity different from all previously
issued ones, so no identifier is reused within the sequence. (current_id is a
u32, hence the bound on it.) -/
theorem new_entity_no_reuse (w : WorldState) (n : Nat)
    (hn : n < 2 ^ 32) (hw : w.current_id < 2 ^ 32) :
    (issueEntities w n).Nodup := by
  rw [issueEntities_closed_form n w hw]
  apply List.Nodup.map_on
  · intro i hi j hj hij
    rw [List.mem_range] at hi hj
    have h1 : (w.current_id + i) % 2 ^ 32 = (w.current_id + j) % 2 ^ 32 := by
      have := congrArg Entity.id hij
      simpa [Entity.new] using this
    omega
  · exact List.nodup_range n

/-- Witness for C5: five entities issued from a fresh world are pairwise
distinct. -/
theorem new_entity_no_reuse_witness :
    5 < 2 ^ 32 ∧ (WorldBuilder.build ⟨60⟩).current_id < 2 ^ 32 ∧
      (issueEntities (WorldBuilder.build ⟨60⟩) 5).Nodup :=
  ⟨by norm_num, by norm_num [WorldBuilder.build],
    new_entity_no_reuse (WorldBuilder.build ⟨60⟩) 5 (by norm_num)
      (by norm_num [WorldBuilder.build])⟩


/-! ### Scheduler lemmas -/

theorem runPass_trace (systems : List SystemDef) (components : List Component) :
    ∀ heap : Heap,
      (runPass systems components heap).2 = systems.map SystemDef.label := by
  induction systems with
  | nil => intro heap; rfl
  | cons s rest ih =>
      intro heap
      simp [runPass, ih]

/-- The heap after k full fixed passes. -/
def iterPasses (systems : List SystemDef) (components : List Component) :
    Nat → Heap → Heap
  | 0, heap => heap
  | n + 1, heap =>
      iterPasses systems components n (runPass systems components heap).1

theorem fixedLoop_spec (period : ℚ) (hp : 0 < period)
    (systems : List SystemDef) (components : List Component) (k : Nat) :
    ∀ (heap : Heap) (r : ℚ), 0 ≤ r → r < period →
      fixedLoop period systems components heap ((k : ℚ) * period + r) =
        (iterPasses systems components k heap, r,
          (List.replicate k (systems.map SystemDef.label)).flatten) := by
  induction k with
  | zero =>
      intro heap r h0 hr
      have hacc : ((0 : Nat) : ℚ) * period + r = r := by push_cast; ring
      have hcond : ¬ (0 < period ∧ period ≤ r) := by
        rintro ⟨_, hle⟩
        exact absurd hle (not_le.mpr hr)
      rw [hacc, fixedLoop, dif_neg hcond]
      simp [iterPasses]
  | succ k ih =>
      intro heap r h0 hr
      have hk : (0 : ℚ) ≤ (k : ℚ) * period := by positivity
      have hcond : 0 < period ∧ period ≤ ((k + 1 : Nat) : ℚ) * period + r := by
        refine ⟨hp, ?_⟩
        push_cast
        nlinarith
      rw [fixedLoop]
      simp only [dif_pos hcond]
      have hsub : ((k + 1 : Nat) : ℚ) * period + r - period =
          (k : ℚ) * period + r := by push_cast; ring
      rw [hsub, ih _ r h0 hr]
      simp [iterPasses, runPass_trace, List.replicate_succ]

/-! ### Claim C1 -/

/-- Claim C1: for a World with fixed-update frequency N >= 1 (period 1/N) and
accumulator 0, a single tick after exactly k/N seconds runs every registered
fixed system exactly k times, in registration order within each pass, and then
every registered dependent system exactly once, in registration order; the
dependent systems run exactly once even when k = 0. The execution trace
records the labels of the systems in the order they were executed. -/
theorem tick_fixed_k_dependent_once (w : WorldState) (N k : Nat)
    (hN : 1 ≤ N) (hper : w.period = 1 / (N : ℚ)) (hacc : w.accumulator = 0) :
    (World.tick w ((k : ℚ) / (N : ℚ))).2 =
      (List.replicate k (w.fixed_systems.map SystemDef.label)).flatten ++
        w.dependent_systems.map SystemDef.label := by
  have hNpos : (0 : ℚ) < (N : ℚ) := by exact_mod_cast hN
  have hp : 0 < w.period := by rw [hper]; positivity
  have hacc2 : w.accumulator + (k : ℚ) / (N : ℚ) =
      (k : ℚ) * w.period + 0 := by
    rw [hacc, hper]
    field_simp
  simp only [World.tick]
  rw [hacc2,
    fixedLoop_spec w.period hp w.fixed_systems w.components k w.heap 0
      le_rfl hp]
  simp [runPass_trace]

/-- A concrete world for the tick witnesses: frequency 2 (period 1/2), two
fixed systems labelled 1 and 2, one dependent system labelled 5. -/
def wTick : WorldState :=
  { entities := []
    components := []
    fixed_systems := [⟨1, [0], fun _ h => h⟩, ⟨2, [0], fun _ h => h⟩]
    dependent_systems := [⟨5, [], fun _ h => h⟩]
    current_id := 0
    period := 1 / ((2 : Nat) : ℚ)
    accumulator := 0
    heap := []
    next_cell := 0 }

/-- Witness for C1: ticking the concrete world after 3/2 seconds runs the two
fixed systems three times in order, then the dependent system once. -/
theorem tick_fixed_k_dependent_once_witness :
    1 ≤ 2 ∧ wTick.period = 1 / ((2 : Nat) : ℚ) ∧ wTick.accumulator = 0 ∧
      (World.tick wTick (((3 : Nat) : ℚ) / ((2 : Nat) : ℚ))).2 =
        [1, 2, 1, 2, 1, 2, 5] :=
  ⟨by norm_num, rfl, rfl,
    (tick_fixed_k_dependent_once wTick 2 3 (by norm_num) rfl rfl).trans
      (by rfl)⟩

/-! ### Claim C10 -/

theorem rat_decomp (period acc : ℚ) (hp : 0 < period) (ha : 0 ≤ acc) :
    ∃ k : Nat, ∃ r : ℚ,
      acc = (k : ℚ) * period + r ∧ 0 ≤ r ∧ r < period := by
  have hz : (0 : ℤ) ≤ ⌊acc / period⌋ :=
    Int.floor_nonneg.mpr (div_nonneg ha hp.le)
  refine ⟨(⌊acc / period⌋).toNat,
    acc - ((⌊acc / period⌋).toNat : ℚ) * period, by ring, ?_, ?_⟩
  · have h1 : (((⌊acc / period⌋).toNat : ℤ) : ℚ) ≤ acc / period := by
      rw [Int.toNat_of_nonneg hz]
      exact Int.floor_le (acc / period)
    have h1n : ((⌊acc / period⌋).toNat : ℚ) ≤ acc / period := by
      exact_mod_cast h1
    have h2 := (le_div_iff₀ hp).mp h1n
    linarith
  · have h1 : acc / period < (((⌊acc / period⌋).toNat : ℤ) : ℚ) + 1 := by
      rw [Int.toNat_of_nonneg hz]
      exact Int.lt_floor_add_one (acc / period)
    have h1n : acc / period < ((⌊acc / period⌋).toNat : ℚ) + 1 := by
      exact_mod_cast h1
    have h2 := (div_lt_iff₀ hp).mp h1n
    nlinarith

/-- Claim C10: if the period is positive and the accumulator non-negative
before a tick, then after tick the accumulator satisfies
0 <= accumulator < period: leftover time below one period is carried over,
and the accumulator never goes negative. -/
theorem tick_accumulator_invariant (w : WorldState) (delta : ℚ)
    (hp : 0 < w.period) (ha : 0 ≤ w.accumulator) (hd : 0 ≤ delta) :
    0 ≤ (World.tick w delta).1.accumulator ∧
      (World.tick w delta).1.accumulator < w.period := by
  obtain ⟨k, r, heq, hr0, hrp⟩ :=
    rat_decomp w.period (w.accumulator + delta) hp (by linarith)
  have hspec :=
    fixedLoop_spec w.period hp w.fixed_systems w.components k w.heap r hr0 hrp
  simp only [World.tick]
  rw [heq, hspec]
  exact ⟨hr0, hrp⟩

/-- Witness for C10: ticking the concrete world by 3/4 seconds leaves the
accumulator in [0, period). -/
theorem tick_accumulator_invariant_witness :
    0 < wTick.period ∧ 0 ≤ wTick.accumulator ∧ 0 ≤ (3 / 4 : ℚ) ∧
      (0 ≤ (World.tick wTick (3 / 4)).1.accumulator ∧
        (World.tick wTick (3 / 4)).1.accumulator < wTick.period) :=
  ⟨by norm_num [wTick], by norm_num [wTick], by norm_num,
    tick_accumulator_invariant wTick (3 / 4) (by norm_num [wTick])
      (by norm_num [wTick]) (by norm_num)⟩


/-! ### First-matching-table lemmas -/

theorem get_eq_firstK (comps : List Component) (k : TypeKey) (ent : Entity) :
    Query.get k (Query.new comps [k]) ent =
      mapLookup
        ((((comps.filter (fun x => x.type_id == k)).head?).getD
          (Component.new k)).data) ent := by
  unfold Query.get
  rw [query_new_filter_comm _ [k] k (by simp)]
  cases hh : (comps.filter (fun x => x.type_id == k)).head? with
  | none => simp [hh, Component.new, mapLookup]
  | some c0 => simp [hh]

theorem get_after_storeInsert (comps : List Component) (k : TypeKey)
    (e ent : Entity) (c : CellId)
    (hnd : (comps.map Component.type_id).Nodup) :
    Query.get k (Query.new (storeInsert comps k e c) [k]) ent =
      mapLookup
        (mapInsert
          ((((comps.filter (fun x => x.type_id == k)).head?).getD
            (Component.new k)).data) e c) ent := by
  unfold Query.get
  rw [query_new_filter_comm _ [k] k (by simp),
    storeInsert_filter_eq comps k e c hnd]
  simp [Component.add_entity]

theorem firstK_data_nodup (comps : List Component) (k : TypeKey)
    (hdat : ∀ c ∈ comps, (c.data.map Prod.fst).Nodup) :
    (((((comps.filter (fun x => x.type_id == k)).head?).getD
      (Component.new k)).data).map Prod.fst).Nodup := by
  cases hh : (comps.filter (fun x => x.type_id == k)).head? with
  | none => simp [Component.new]
  | some c0 =>
      have hc0 : c0 ∈ comps :=
        (List.mem_filter.mp (List.mem_of_mem_head? hh)).1
      simpa [hh] using hdat c0 hc0

theorem storeInsert_data_nodup (comps : List Component) (k : TypeKey)
    (e : Entity) (c : CellId)
    (hdat : ∀ x ∈ comps, (x.data.map Prod.fst).Nodup) :
    ∀ x ∈ storeInsert comps k e c, (x.data.map Prod.fst).Nodup := by
  induction comps with
  | nil =>
      intro x hx
      simp only [storeInsert, List.mem_singleton] at hx
      subst hx
      simp [Component.add_entity, Component.new, mapInsert]
  | cons comp rest ih =>
      intro x hx
      by_cases h : comp.type_id = k
      · simp only [storeInsert, if_pos h] at hx
        rcases List.mem_cons.mp hx with h2 | h2
        · subst h2
          exact nodup_keys_mapInsert comp.data e c
            (hdat comp (List.mem_cons_self _ _))
        · exact hdat x (List.mem_cons_of_mem _ h2)
      · simp only [storeInsert, if_neg h] at hx
        rcases List.mem_cons.mp hx with h2 | h2
        · subst h2
          exact hdat x (List.mem_cons_self _ _)
        · exact ih (fun y hy => hdat y (List.mem_cons_of_mem _ hy)) x h2

/-! ### Claim C8 -/

/-- Claim C8: after add_component of type key k on entity e, a Query whose
filter contains k returns e exactly once from get_entities — e is present and
not duplicated, no matter how many times a component of that type was
previously added to e. -/
theorem add_component_entity_once (w : WorldState) (k : TypeKey) (e : Entity)
    (v : Val) (F : List TypeKey) (hk : k ∈ F)
    (hnd : (w.components.map Component.type_id).Nodup)
    (hdat : ∀ c ∈ w.components, (c.data.map Prod.fst).Nodup) :
    (Query.get_entities k
      (Query.new (World.add_component w k e v).components F)).count e = 1 := by
  have hcomps : (World.add_component w k e v).components =
      storeInsert w.components k e w.next_cell := rfl
  unfold Query.get_entities
  rw [query_new_filter_comm _ F k hk, hcomps,
    storeInsert_filter_eq w.components k e w.next_cell hnd]
  simp only [List.map_cons, List.map_nil, List.flatten_cons, List.flatten_nil,
    List.append_nil, Component.add_entity]
  rw [count_keys_mapInsert _ e w.next_cell (firstK_data_nodup w.components k hdat)]

/-- A concrete world for the component witnesses: entity 0 has a component of
type key 1 (cell 0), entity 1 has a component of type key 2 (cell 1). -/
def wComp : WorldState :=
  { entities := [Entity.new 0, Entity.new 1]
    components := wStore
    fixed_systems := []
    dependent_systems := []
    current_id := 2
    period := 1 / ((60 : Nat) : ℚ)
    accumulator := 0
    heap := [(0, 10), (1, 20)]
    next_cell := 2 }

/-- Witness for C8: re-adding a type-key-1 component to entity 0 (which
already has one) still lists entity 0 exactly once. -/
theorem add_component_entity_once_witness :
    (1 : TypeKey) ∈ ([1, 2] : List TypeKey) ∧
    (wComp.components.map Component.type_id).Nodup ∧
    (∀ c ∈ wComp.components, (c.data.map Prod.fst).Nodup) ∧
    (Query.get_entities 1
      (Query.new (World.add_component wComp 1 (Entity.new 0) 99).components
        [1, 2])).count (Entity.new 0) = 1 :=
  ⟨by decide, by decide, by decide,
    add_component_entity_once wComp 1 (Entity.new 0) 99 [1, 2] (by decide)
      (by decide) (by decide)⟩


theorem mapLookup_mem {α β : Type} [DecidableEq α]
    (m : List (α × β)) (k : α) (v : β) (h : mapLookup m k = some v) :
    (k, v) ∈ m := by
  induction m with
  | nil => simp [mapLookup] at h
  | cons p rest ih =>
      by_cases hp : p.1 = k
      · simp only [mapLookup, if_pos hp, Option.some.injEq] at h
        have hpp : p = (k, v) := by
          obtain ⟨p1, p2⟩ := p
          simp only at hp h
          rw [hp, h]
        exact hpp ▸ List.mem_cons_self p rest
      · simp only [mapLookup, if_neg hp] at h
        exact List.mem_cons_of_mem _ (ih h)

theorem mapLookup_map_pair {α β γ : Type} [DecidableEq α]
    (m : List (α × β)) (g : α × β → γ) (k : α) (v : β)
    (h : mapLookup m k = some v) :
    mapLookup (m.map (fun p => (p.1, g p))) k = some (g (k, v)) := by
  induction m with
  | nil => simp [mapLookup] at h
  | cons p rest ih =>
      by_cases hp : p.1 = k
      · simp only [mapLookup, if_pos hp, Option.some.injEq] at h
        have hpp : p = (k, v) := by
          obtain ⟨p1, p2⟩ := p
          simp only at hp h
          rw [hp, h]
        simp [mapLookup, List.map_cons, hp, hpp]
      · simp only [mapLookup, if_neg hp] at h
        simpa [mapLookup, List.map_cons, hp] using ih h

/-! ### Claim C6 -/

/-- Claim C6: after share_component(e, c) the table for the type key maps e to
the very cell c that was handed in, not a copy: a Query whose filter contains
the key hands back exactly c from get and maps e to c in get_all; a mutation
of the contents of c made outside the World before a later Query operation is seen
by that operation (here through the all-view); and since the cell inside the
World is c itself, a write through the Query is a write to the very cell the
external holder reads. -/
theorem share_component_aliasing (w : WorldState) (k : TypeKey) (e : Entity)
    (c : CellId) (F : List TypeKey) (v v0 : Val) (hk : k ∈ F)
    (hcell : mapLookup w.heap c = some v0)
    (hnd : (w.components.map Component.type_id).Nodup)
    (hdat : ∀ x ∈ w.components, (x.data.map Prod.fst).Nodup) :
    Query.get k (Query.new (World.share_component w k e c).components F) e =
      some c ∧
    mapLookup (Query.get_all k
      (Query.new (World.share_component w k e c).components F)) e = some c ∧
    mapLookup (writeCell (World.share_component w k e c).heap c v) c =
      some v ∧
    mapLookup (Query.allView k
      (Query.new (World.share_component w k e c).components F)
      (writeCell (World.share_component w k e c).heap c v)) e =
      some (some v) := by
  have hcomps : (World.share_component w k e c).components =
      storeInsert w.components k e c := rfl
  have hheap : (World.share_component w k e c).heap = w.heap := rfl
  have hfilter :
      (Query.new (World.share_component w k e c).components F).matched.filter
        (fun x => x.type_id == k) =
      [Component.add_entity
        (((w.components.filter (fun x => x.type_id == k)).head?).getD
          (Component.new k)) e c] := by
    rw [query_new_filter_comm _ F k hk, hcomps,
      storeInsert_filter_eq w.components k e c hnd]
  have hget :
      Query.get k (Query.new (World.share_component w k e c).components F) e =
        some c := by
    unfold Query.get
    rw [hfilter]
    simp [Component.add_entity, mapLookup_mapInsert_self]
  have hmapnd :
      ((mapInsert
        (((((w.components.filter (fun x => x.type_id == k)).head?).getD
          (Component.new k))).data) e c).map Prod.fst).Nodup :=
    nodup_keys_mapInsert _ e c (firstK_data_nodup w.components k hdat)
  have hgetall :
      mapLookup (Query.get_all k
        (Query.new (World.share_component w k e c).components F)) e =
        some c := by
    unfold Query.get_all
    rw [hfilter]
    simp only [List.map_cons, List.map_nil, List.flatten_cons,
      List.flatten_nil, List.append_nil, Component.add_entity]
    exact mapLookup_collectMap_mem _ e c
      (mapLookup_mem _ e c (mapLookup_mapInsert_self _ e c)) hmapnd
  have hwrite :
      mapLookup (writeCell (World.share_component w k e c).heap c v) c =
        some v := by
    rw [hheap]
    exact writeCell_lookup_self w.heap c v v0 hcell
  refine ⟨hget, hgetall, hwrite, ?_⟩
  have hview := mapLookup_map_pair
    (Query.get_all k (Query.new (World.share_component w k e c).components F))
    (fun p => mapLookup (writeCell (World.share_component w k e c).heap c v)
      p.2)
    e c hgetall
  unfold Query.allView
  rw [hview]
  exact congrArg some hwrite

/-- Witness for C6: share a fresh handle on cell 1 (currently holding 20)
under type key 2 for entity 0, then write 77 into the cell. -/
theorem share_component_aliasing_witness :
    ((2 : TypeKey) ∈ ([1, 2] : List TypeKey) ∧
      mapLookup wComp.heap 1 = some 20 ∧
      (wComp.components.map Component.type_id).Nodup ∧
      (∀ x ∈ wComp.components, (x.data.map Prod.fst).Nodup)) ∧
    (Query.get 2
      (Query.new (World.share_component wComp 2 (Entity.new 0) 1).components
        [1, 2]) (Entity.new 0) = some 1 ∧
    mapLookup (Query.get_all 2
      (Query.new (World.share_component wComp 2 (Entity.new 0) 1).components
        [1, 2])) (Entity.new 0) = some 1 ∧
    mapLookup
      (writeCell (World.share_component wComp 2 (Entity.new 0) 1).heap 1 77)
      1 = some 77 ∧
    mapLookup (Query.allView 2
      (Query.new (World.share_component wComp 2 (Entity.new 0) 1).components
        [1, 2])
      (writeCell (World.share_component wComp 2 (Entity.new 0) 1).heap 1 77))
      (Entity.new 0) = some (some 77)) :=
  ⟨⟨by decide, by decide, by decide, by decide⟩,
    share_component_aliasing wComp 2 (Entity.new 0) 1 [1, 2] 77 20
      (by decide) (by decide) (by decide) (by decide)⟩


/-! ### Claim C4 -/

/-- Reading the current value of the component of type key k on entity e: fetch the
cell with Query::get through a Query filtered on that key, then read the
contents of the cell (the lock-and-downcast step). -/
def worldValue (w : WorldState) (k : TypeKey) (e : Entity) : Option Val :=
  match Query.get k (Query.new w.components [k]) e with
  | some cid => mapLookup w.heap cid
  | none => none

/-- Claim C4: add_component(e, v1) followed by add_component(e, v2) of the
same type key leaves exactly one entry for e in the table for that key,
holding v2 — silent overwrite, last write wins — and the entries of other
entities in that table are unchanged. (No error is raised: the operations are
total.) -/
theorem add_component_last_write_wins (w : WorldState) (k : TypeKey)
    (e : Entity) (v1 v2 : Val)
    (hnd : (w.components.map Component.type_id).Nodup)
    (hdat : ∀ c ∈ w.components, (c.data.map Prod.fst).Nodup)
    (hheap : ∀ p ∈ w.heap, p.1 < w.next_cell)
    (hcells : ∀ c ∈ w.components, ∀ q ∈ c.data, q.2 < w.next_cell) :
    (∀ c ∈ (World.add_component (World.add_component w k e v1) k
        e v2).components,
      c.type_id = k → (c.data.map Prod.fst).count e = 1) ∧
    worldValue (World.add_component (World.add_component w k e v1) k e v2)
      k e = some v2 ∧
    (∀ e2, e2 ≠ e →
      worldValue (World.add_component (World.add_component w k e v1) k e v2)
        k e2 = worldValue w k e2) := by
  have hcomps1 : (World.add_component w k e v1).components =
      storeInsert w.components k e w.next_cell := rfl
  have hnd1 : ((World.add_component w k e v1).components.map
      Component.type_id).Nodup := by
    rw [hcomps1]
    exact nodup_storeInsert_typeKeys _ k e _ hnd
  have hf1 : ((World.add_component w k e v1).components.filter
      (fun x => x.type_id == k)) =
      [Component.add_entity
        (((w.components.filter (fun x => x.type_id == k)).head?).getD
          (Component.new k)) e w.next_cell] := by
    rw [hcomps1]
    exact storeInsert_filter_eq w.components k e w.next_cell hnd
  have hf2 : ((World.add_component (World.add_component w k e v1) k
        e v2).components.filter (fun x => x.type_id == k)) =
      [Component.add_entity
        (Component.add_entity
          (((w.components.filter (fun x => x.type_id == k)).head?).getD
            (Component.new k)) e w.next_cell) e (w.next_cell + 1)] := by
    have := storeInsert_filter_eq (World.add_component w k e v1).components
      k e (w.next_cell + 1) hnd1
    rw [hf1] at this
    simpa using this
  have hnd0 := firstK_data_nodup w.components k hdat
  have hndins : ((mapInsert
      ((((w.components.filter (fun x => x.type_id == k)).head?).getD
        (Component.new k)).data) e w.next_cell).map Prod.fst).Nodup :=
    nodup_keys_mapInsert _ e w.next_cell hnd0
  refine ⟨?_, ?_, ?_⟩
  · intro c hc hck
    have hmem : c ∈ (World.add_component (World.add_component w k e v1) k
        e v2).components.filter (fun x => x.type_id == k) :=
      List.mem_filter.mpr ⟨hc, by simp [hck]⟩
    rw [hf2, List.mem_singleton] at hmem
    subst hmem
    simp only [Component.add_entity]
    exact count_keys_mapInsert _ e (w.next_cell + 1) hndins
  · have hget : Query.get k (Query.new
        (World.add_component (World.add_component w k e v1) k
          e v2).components [k]) e = some (w.next_cell + 1) := by
      unfold Query.get
      rw [query_new_filter_comm _ [k] k (by simp), hf2]
      simp [Component.add_entity, mapLookup_mapInsert_self]
    have hlook : mapLookup
        (World.add_component (World.add_component w k e v1) k e v2).heap
        (w.next_cell + 1) = some v2 := by
      have hheap2 : (World.add_component (World.add_component w k e v1) k
          e v2).heap =
          (w.heap ++ [(w.next_cell, v1)]) ++ [(w.next_cell + 1, v2)] := rfl
      have hn1 : mapLookup (w.heap ++ [(w.next_cell, v1)])
          (w.next_cell + 1) = none := by
        apply mapLookup_eq_none_of_not_mem
        intro hmem
        rw [List.map_append, List.mem_append] at hmem
        rcases hmem with hmem | hmem
        · rcases List.mem_map.mp hmem with ⟨p, hp, hpe⟩
          have h2 := hheap p hp
          rw [hpe] at h2
          exact Nat.lt_irrefl _ (Nat.lt_trans (Nat.lt_succ_self _) h2)
        · simp at hmem
      rw [hheap2, mapLookup_append_of_none _ _ _ hn1]
      simp [mapLookup]
    simp only [worldValue, hget, hlook]
  · intro e2 hne
    have hget2 : Query.get k (Query.new
        (World.add_component (World.add_component w k e v1) k
          e v2).components [k]) e2 =
        mapLookup
          ((((w.components.filter (fun x => x.type_id == k)).head?).getD
            (Component.new k)).data) e2 := by
      unfold Query.get
      rw [query_new_filter_comm _ [k] k (by simp), hf2]
      simp only [List.head?_cons, Option.some.injEq, Component.add_entity]
      rw [mapLookup_mapInsert_ne _ _ _ _ hne, mapLookup_mapInsert_ne _ _ _ _ hne]
    have hgetw : Query.get k (Query.new w.components [k]) e2 =
        mapLookup
          ((((w.components.filter (fun x => x.type_id == k)).head?).getD
            (Component.new k)).data) e2 :=
      get_eq_firstK w.components k e2
    cases ht : mapLookup
        ((((w.components.filter (fun x => x.type_id == k)).head?).getD
          (Component.new k)).data) e2 with
    | none =>
        rw [ht] at hget2 hgetw
        simp only [worldValue, hget2, hgetw]
    | some cid =>
        rw [ht] at hget2 hgetw
        have hcid : cid < w.next_cell := by
          cases hh : (w.components.filter (fun x => x.type_id == k)).head? with
          | none =>
              rw [hh] at ht
              simp [Component.new, mapLookup] at ht
          | some c0 =>
              rw [hh] at ht
              have hc0 : c0 ∈ w.components :=
                (List.mem_filter.mp (List.mem_of_mem_head? hh)).1
              exact hcells c0 hc0 (e2, cid) (mapLookup_mem _ e2 cid ht)
        have hheap2 : (World.add_component (World.add_component w k e v1) k
            e v2).heap =
            (w.heap ++ [(w.next_cell, v1)]) ++ [(w.next_cell + 1, v2)] := rfl
        have hsame : mapLookup
            ((w.heap ++ [(w.next_cell, v1)]) ++ [(w.next_cell + 1, v2)])
            cid = mapLookup w.heap cid := by
          cases hmw : mapLookup w.heap cid with
          | some u =>
              exact mapLookup_append_of_some _ _ _ _
                (mapLookup_append_of_some _ _ _ _ hmw)
          | none =>
              have hne2 : ¬ ((w.next_cell + 1 : CellId) = cid) :=
                (Nat.ne_of_lt (Nat.lt_trans hcid (Nat.lt_succ_self _))).symm
              have hne3 : ¬ ((w.next_cell : CellId) = cid) :=
                (Nat.ne_of_lt hcid).symm
              have h1 : mapLookup (w.heap ++ [(w.next_cell, v1)]) cid =
                  none := by
                rw [mapLookup_append_of_none _ _ _ hmw]
                simp [mapLookup, hne3]
              rw [mapLookup_append_of_none _ _ _ h1]
              simp [mapLookup, hne2]
        simp only [worldValue, hget2, hgetw, hheap2, hsame]

/-- Witness for C4: adding value 31 then 32 under type key 1 to entity 0 of
the concrete world leaves one entry holding 32 and does not disturb entity 1.
-/
theorem add_component_last_write_wins_witness :
    ((wComp.components.map Component.type_id).Nodup ∧
      (∀ c ∈ wComp.components, (c.data.map Prod.fst).Nodup) ∧
      (∀ p ∈ wComp.heap, p.1 < wComp.next_cell) ∧
      (∀ c ∈ wComp.components, ∀ q ∈ c.data, q.2 < wComp.next_cell)) ∧
    ((∀ c ∈ (World.add_component (World.add_component wComp 1 (Entity.new 0)
          31) 1 (Entity.new 0) 32).components,
        c.type_id = 1 → (c.data.map Prod.fst).count (Entity.new 0) = 1) ∧
      worldValue (World.add_component (World.add_component wComp 1
        (Entity.new 0) 31) 1 (Entity.new 0) 32) 1 (Entity.new 0) = some 32 ∧
      (∀ e2, e2 ≠ Entity.new 0 →
        worldValue (World.add_component (World.add_component wComp 1
          (Entity.new 0) 31) 1 (Entity.new 0) 32) 1 e2 =
          worldValue wComp 1 e2)) :=
  ⟨⟨by decide, by decide, by decide, by decide⟩,
    add_component_last_write_wins wComp 1 (Entity.new 0) 31 32 (by decide)
      (by decide) (by decide) (by decide)⟩


/-! ### Claim C9 -/

theorem writeback_foldl_id (cells : List (Entity × CellId)) (heap : Heap)
    (hnd : (heap.map Prod.fst).Nodup) :
    ∀ L : List (Entity × Option Val),
      (∀ p ∈ L, ∀ cid, mapLookup cells p.1 = some cid →
        p.2 = mapLookup heap cid) →
      L.foldl (fun h p =>
        match mapLookup cells p.1, p.2 with
        | some cid, some v => writeCell h cid v
        | _, _ => h) heap = heap := by
  intro L
  induction L with
  | nil => intro _; rfl
  | cons p rest ih =>
      intro hL
      have hstep : (match mapLookup cells p.1, p.2 with
          | some cid, some v => writeCell heap cid v
          | _, _ => heap) = heap := by
        cases hc : mapLookup cells p.1 with
        | none => cases p.2 <;> rfl
        | some cid =>
            have hp2 := hL p (List.mem_cons_self _ _) cid hc
            cases hv : p.2 with
            | none => rfl
            | some v =>
                rw [hv] at hp2
                exact writeCell_self_id heap cid v hnd hp2.symm
      rw [List.foldl_cons, hstep]
      exact ih (fun x hx cid hc => hL x (List.mem_cons_of_mem _ hx) cid hc)

/-- Claim C9: Query::all with a closure f that performs no mutation of the
component values handed to it (its result equals its input view) leaves the
heap unchanged, and hence repeated invocations of all present f with
identical entity-to-value associations each time. -/
theorem all_readonly_idempotent (T : TypeKey) (q : Query) (heap : Heap)
    (f : List (Entity × Option Val) → List (Entity × Option Val))
    (hro : ∀ view, f view = view)
    (hnd : (heap.map Prod.fst).Nodup) :
    Query.all T q heap f = heap ∧
    Query.allView T q (Query.all T q heap f) = Query.allView T q heap := by
  have hcellsnd : ((Query.get_all T q).map Prod.fst).Nodup := by
    unfold Query.get_all
    exact collectMap_keys_nodup _
  have hmain : Query.all T q heap f = heap := by
    unfold Query.all
    rw [hro]
    apply writeback_foldl_id (Query.get_all T q) heap hnd
    intro p hp cid hc
    rcases List.mem_map.mp hp with ⟨x, hx, hpx⟩
    have hlx : mapLookup (Query.get_all T q) x.1 = some x.2 :=
      mapLookup_of_mem_nodup _ x.1 x.2 (by simpa using hx) hcellsnd
    rw [← hpx] at hc ⊢
    simp only at hc ⊢
    rw [hlx] at hc
    rw [Option.some.inj hc]
  exact ⟨hmain, by rw [hmain]⟩

/-- Witness for C9: running all on the concrete world with the identity (no
mutation) closure leaves the heap untouched and the view stable. -/
theorem all_readonly_idempotent_witness :
    (∀ view : List (Entity × Option Val),
      (fun v : List (Entity × Option Val) => v) view = view) ∧
    (wComp.heap.map Prod.fst).Nodup ∧
    (Query.all 1 (Query.new wComp.components [1, 2]) wComp.heap
        (fun v => v) = wComp.heap ∧
      Query.allView 1 (Query.new wComp.components [1, 2])
        (Query.all 1 (Query.new wComp.components [1, 2]) wComp.heap
          (fun v => v)) =
        Query.allView 1 (Query.new wComp.components [1, 2]) wComp.heap) :=
  ⟨fun _ => rfl, by decide,
    all_readonly_idempotent 1 (Query.new wComp.components [1, 2]) wComp.heap
      (fun v => v) (fun _ => rfl) (by decide)⟩

end Aspen
